import Mathlib

/-!
Shallow embedding of the health_connect acquisition-and-reconciliation
pipeline (`clean_body_data.py`, `get_all_data.py`) and proofs about it.

Calendar dates are modelled as natural numbers (day numbers); adding one
day is `+ 1`.  Numeric measurement values are modelled as rationals.
-/

namespace HealthConnect

/-- A raw measurement cell as it sits in the store before coercion:
either a numeric value or a non-numeric token (which `pd.to_numeric`
with `errors='coerce'` maps to NaN, i.e. missing).  A missing cell in
the file is also represented by `nonNum`. -/
inductive RawVal where
  | num (q : Rat)
  | nonNum
deriving DecidableEq, Repr

/-- One raw record of the historical store (`body_data.csv`): the date,
the three measurement fields, and the provenance metadata. -/
structure RawRecord where
  date : Nat
  weight : RawVal
  bmi : RawVal
  fat : RawVal
  logId : Nat
  source : String
  time : String
deriving DecidableEq, Repr

/-- One record of the cleaned series: the three measurement fields are
either a real numeric value or missing (`none`). -/
@[ext] structure CleanRecord where
  date : Nat
  weight : Option Rat
  bmi : Option Rat
  fat : Option Rat
  logId : Nat
  source : String
  time : String
deriving DecidableEq, Repr

/-- `pd.to_numeric(errors='coerce')` on an already-typed cell: a numeric
value stays, anything non-numeric becomes missing. -/
def coerceVal : RawVal → Option Rat
  | .num q => some q
  | .nonNum => none

/-- `df.replace(0, pd.NA)`: a coerced value of exactly `0` becomes missing. -/
def zeroToNone : Option Rat → Option Rat
  | some q => if q = 0 then none else some q
  | none => none

/-- Apply the numeric coercion and the zero-sentinel removal to the three
measurement fields of one record (steps 3 and 4 of the cleaning pass). -/
def toCleanRecord (r : RawRecord) : CleanRecord :=
  { date := r.date
    weight := zeroToNone (coerceVal r.weight)
    bmi := zeroToNone (coerceVal r.bmi)
    fat := zeroToNone (coerceVal r.fat)
    logId := r.logId
    source := r.source
    time := r.time }

/-- One step of forward filling: keep a present value, otherwise use the
carried value. -/
def fillVal {α : Type} (c : Option α) : Option α → Option α
  | some x => some x
  | none => c

/-- `df.drop_duplicates(subset=k, keep='first')`: scan left to right,
keeping a record only when its key has not been seen before. -/
def dropSeen {α β : Type} [DecidableEq β] (key : α → β) (seen : List β) :
    List α → List α
  | [] => []
  | a :: l =>
    if key a ∈ seen then dropSeen key seen l
    else a :: dropSeen key (key a :: seen) l

/-- `df.drop_duplicates(subset='date', keep='first')` on the record list. -/
def dedupByDate (l : List RawRecord) : List RawRecord :=
  dropSeen (fun r => r.date) [] l

/-- Comparison used by `df.sort_values(by='date')`. -/
def dateLE (a b : RawRecord) : Prop := a.date ≤ b.date

instance : DecidableRel dateLE := fun a b => Nat.decLe a.date b.date

instance : IsTotal RawRecord dateLE := ⟨fun a b => Nat.le_total a.date b.date⟩

instance : IsTrans RawRecord dateLE := ⟨fun _ _ _ h1 h2 => Nat.le_trans h1 h2⟩

/-- `df.sort_values(by='date')`: sort ascending by date.  (Pandas uses an
unstable sort, but the cleaning pass only sorts after deduplication, when
dates are pairwise distinct, so the sorted sequence is unique; insertion
sort computes it.) -/
def sortByDate (l : List RawRecord) : List RawRecord :=
  List.insertionSort dateLE l

/-- `df.ffill()` restricted to the three measurement fields, carrying the
last seen value of each field independently. -/
def ffillRecords (cw cb cf : Option Rat) : List CleanRecord → List CleanRecord
  | [] => []
  | r :: rs =>
    { r with
        weight := fillVal cw r.weight
        bmi := fillVal cb r.bmi
        fat := fillVal cf r.fat } ::
      ffillRecords (fillVal cw r.weight) (fillVal cb r.bmi) (fillVal cf r.fat) rs

/-- The cleaning pass of `clean_body_data`: drop duplicate dates keeping
the first occurrence, sort ascending by date, coerce the measurement
fields to numeric, replace zeros by missing, and forward fill. -/
def clean_body_data (input : List RawRecord) : List CleanRecord :=
  ffillRecords none none none
    ((sortByDate (dedupByDate input)).map toCleanRecord)

/-! ## RangeFetcher (`get_body_data` in `get_all_data.py`)

The loop `while current_date <= end_date` advances by
`next_date = min(current_date + chunk, end_date)` and then
`current_date = next_date + 1`.  Every iteration advances `current_date`
by at least one day, so `end_date + 1 - start_date` iterations always
suffice; the recursion is written structurally on that fuel so that the
functions compute by kernel reduction. -/

/-- One flattened entry of the `'weight'` list of an API response, with
the fields the pipeline stores (values kept as raw strings). -/
structure Entry where
  bmi : String
  date : String
  logId : String
  source : String
  time : String
  weight : String
  fat : String
deriving DecidableEq, Repr

/-- The `(base_date, end_date)` pairs of the successive
`get_bodyweight` requests issued by the chunk loop, structurally on
fuel. -/
def requestsAux (c : Nat) : Nat → Nat → Nat → List (Nat × Nat)
  | 0, _, _ => []
  | fuel + 1, current, endD =>
    if current ≤ endD then
      (current, min (current + c) endD) ::
        requestsAux c fuel (min (current + c) endD + 1) endD
    else []

/-- The request ranges issued by `get_body_data(start, end, period)` with
chunk size `c` days (`int(period[:-1])`). -/
def requests (c start endD : Nat) : List (Nat × Nat) :=
  requestsAux c (endD + 1 - start) start endD

/-- An API client: for a request range it either returns a response whose
optional `'weight'` key holds a list of entries, or raises an error. -/
def Client : Type := Nat → Nat → Except String (Option (List Entry))

/-- The chunk loop of `get_body_data`: on success append the entries of
the `'weight'` key (nothing if the key is absent), on an exception record
the printed error message and continue with the next chunk. -/
def fetchAux (client : Client) (c : Nat) :
    Nat → Nat → Nat → List Entry × List (Nat × Nat × String)
  | 0, _, _ => ([], [])
  | fuel + 1, current, endD =>
    if current ≤ endD then
      let next := min (current + c) endD
      let rest := fetchAux client c fuel (next + 1) endD
      match client current next with
      | .ok (some entries) => (entries ++ rest.1, rest.2)
      | .ok none => rest
      | .error msg => (rest.1, (current, next, msg) :: rest.2)
    else ([], [])

/-- `get_body_data(authd_client, start_date, end_date, period)` with
chunk size `c` days: the collected bodyweight entries together with the
per-chunk failure reports printed along the way. -/
def get_body_data (client : Client) (start endD c : Nat) :
    List Entry × List (Nat × Nat × String) :=
  fetchAux client c (endD + 1 - start) start endD

/-- The entries a single chunk contributes to the result. -/
def chunkEntries (client : Client) (p : Nat × Nat) : List Entry :=
  match client p.1 p.2 with
  | .ok (some entries) => entries
  | .ok none => []
  | .error _ => []

/-- The failure reports a single chunk contributes. -/
def chunkFails (client : Client) (p : Nat × Nat) : List (Nat × Nat × String) :=
  match client p.1 p.2 with
  | .error msg => [(p.1, p.2, msg)]
  | .ok _ => []

/-! ## HistoryStore (`get_start_date_from_csv`, `append_data_to_csv`) -/

/-- `datetime(year=2023, month=7, day=1)` as a day number
(days since 1970-01-01). -/
def defaultStartDate : Nat := 19539

/-- `df['date'].max()` over the parsed date column. -/
def maxDateOf (dates : List Nat) : Nat := dates.foldl max 0

/-- `get_start_date_from_csv`: the store is `none` when the file does not
exist, `some dates` (the parsed date column) when it does; an existing
file with no data rows gives an empty list (`df.empty`). -/
def get_start_date_from_csv (store : Option (List Nat)) : Nat :=
  match store with
  | some dates => if dates.isEmpty then defaultStartDate else maxDateOf dates + 1
  | none => defaultStartDate

/-- `columns_order` of `append_data_to_csv`. -/
def canonicalColumns : List String :=
  ["bmi", "date", "logId", "source", "time", "weight", "fat"]

/-- `df.reindex(columns=columns_order)` applied to one entry: its cells
in the canonical column order. -/
def entryRow (e : Entry) : List String :=
  [e.bmi, e.date, e.logId, e.source, e.time, e.weight, e.fat]

/-- `append_data_to_csv`: the store file is `none` when it does not exist
and `some lines` (its lines, each a list of cells) when it does.  If the
file exists the rows are appended with `header=False`; otherwise the file
is created with a header line. -/
def append_data_to_csv (entries : List Entry)
    (file : Option (List (List String))) : List (List String) :=
  match file with
  | some lines => lines ++ entries.map entryRow
  | none => canonicalColumns :: entries.map entryRow

/-! ## Table-level cleaning (`clean_body_data` including the CSV read)

`pd.read_csv` yields a header and string-valued rows; the cleaning pass
then raises `KeyError` at `drop_duplicates(subset='date')` when the
`date` column is absent, raises at `pd.to_datetime` when a date cell
does not parse, raises `KeyError` when one of the measurement columns is
absent, and only writes the output file when no step raised. -/

/-- A CSV table as loaded by `pd.read_csv`. -/
structure Table where
  header : List String
  rows : List (List String)
deriving DecidableEq, Repr

/-- Index of a column name in the header. -/
def colIndex (header : List String) (name : String) : Option Nat :=
  match header with
  | [] => none
  | h :: t => if h = name then some 0 else (colIndex t name).map (· + 1)

/-- The cell of a row under a named column. -/
def getCell (header row : List String) (name : String) : Option String :=
  (colIndex header name).bind fun i => row.get? i

/-- The date cell of a row as a string (a missing cell reads as empty). -/
def dateCellOf (header : List String) (row : List String) : String :=
  (getCell header row "date").getD ""

/-- `pd.to_datetime` on an ISO `YYYY-MM-DD` string, modelled as the key
`y*10000 + m*100 + d`, which preserves calendar order and equality on
valid dates. -/
def parseDate (s : String) : Option Nat :=
  match s.splitOn "-" with
  | [y, m, d] =>
    match y.toNat?, m.toNat?, d.toNat? with
    | some yn, some mn, some dn =>
      if 1 ≤ mn ∧ mn ≤ 12 ∧ 1 ≤ dn ∧ dn ≤ 31 then
        some (yn * 10000 + mn * 100 + dn)
      else none
    | _, _, _ => none
  | _ => none

/-- Numeric value of a digit list. -/
def digitsVal (cs : List Char) : Nat :=
  cs.foldl (fun n c => 10 * n + (c.toNat - 48)) 0

/-- An unsigned decimal literal as a rational. -/
def parseDecimalCore (s : String) : Option Rat :=
  match s.splitOn "." with
  | [ip] =>
    if ip ≠ "" ∧ ip.toList.all Char.isDigit then some (digitsVal ip.toList : Rat)
    else none
  | [ip, fp] =>
    if ip ≠ "" ∧ fp ≠ "" ∧ ip.toList.all Char.isDigit ∧ fp.toList.all Char.isDigit then
      some ((digitsVal ip.toList : Rat) + (digitsVal fp.toList : Rat) / (10 : Rat) ^ fp.length)
    else none
  | _ => none

/-- `pd.to_numeric(errors='coerce')` on a string cell: decimal literals
(optionally negative) become numbers, everything else becomes missing. -/
def parseNumeric (s : String) : RawVal :=
  if s.startsWith "-" then
    match parseDecimalCore (s.drop 1) with
    | some q => .num (-q)
    | none => .nonNum
  else
    match parseDecimalCore s with
    | some q => .num q
    | none => .nonNum

/-- Build the record of one row once its date has been parsed to `d`. -/
def rowToRaw (header row : List String) (d : Nat) : RawRecord :=
  { date := d
    weight := parseNumeric ((getCell header row "weight").getD "")
    bmi := parseNumeric ((getCell header row "bmi").getD "")
    fat := parseNumeric ((getCell header row "fat").getD "")
    logId := ((getCell header row "logId").getD "").toNat?.getD 0
    source := (getCell header row "source").getD ""
    time := (getCell header row "time").getD "" }

/-- `pd.to_datetime(df['date'])` over all rows: fails when any date cell
does not parse. -/
def parseRows (header : List String) : List (List String) → Option (List RawRecord)
  | [] => some []
  | row :: rest =>
    match parseDate (dateCellOf header row), parseRows header rest with
    | some d, some rs => some (rowToRaw header row d :: rs)
    | _, _ => none

/-- The whole cleaning call on a loaded table, with the failure points in
the order the source hits them: `drop_duplicates(subset='date')` raises
`KeyError` without a `date` column; the deduplication itself keys on the
raw date cells; `pd.to_datetime` raises on an unparseable date; selecting
`df[['bmi', 'fat', 'weight']]` raises `KeyError` when a measurement
column is absent; then sort, coerce, remove zeros and forward fill. -/
def cleanTable (t : Table) : Except String (List CleanRecord) :=
  if "date" ∈ t.header then
    match parseRows t.header (dropSeen (dateCellOf t.header) [] t.rows) with
    | none => .error "to_datetime: unparseable date"
    | some recs =>
      if "bmi" ∈ t.header ∧ "fat" ∈ t.header ∧ "weight" ∈ t.header then
        .ok (ffillRecords none none none ((sortByDate recs).map toCleanRecord))
      else .error "KeyError: measurement column"
  else .error "KeyError: date"

/-- The output-file effect of one `clean_body_data` call: `df.to_csv`
runs only after every prior step succeeded, so on an exception the
previous output file (if any) is left as it was. -/
def runClean (t : Table) (oldOutput : Option (List CleanRecord)) :
    Option (List CleanRecord) :=
  match cleanTable t with
  | .ok out => some out
  | .error _ => oldOutput

/-! ## Spec-side definitions -/

/-- Specification-side rendering of forward fill, following the spec's
words: at every position, the value is the nearest earlier (or own)
non-missing value in the sequence, and a position with no earlier
non-missing value stays missing. -/
def specForwardFill (vs : List (Option Rat)) : List (Option Rat) :=
  (List.range vs.length).map fun i => ((vs.take (i + 1)).filterMap id).getLast?

/-- Reading a cleaned value back from the output file: a present value
reads back as that number, a missing one as an empty (non-numeric)
cell. -/
def toRawVal : Option Rat → RawVal
  | some q => .num q
  | none => .nonNum

/-- A cleaned record as it reads back from the cleaned file, for feeding
the cleaning pass a second time. -/
def reRaw (c : CleanRecord) : RawRecord :=
  { date := c.date
    weight := toRawVal c.weight
    bmi := toRawVal c.bmi
    fat := toRawVal c.fat
    logId := c.logId
    source := c.source
    time := c.time }

/-! ## Lemmas about `fillVal` and forward filling -/

theorem fillVal_none {α : Type} (v : Option α) : fillVal none v = v := by
  cases v <;> rfl

theorem fillVal_fillVal {α : Type} (c v : Option α) :
    fillVal c (fillVal c v) = fillVal c v := by
  cases v <;> cases c <;> rfl

theorem fillVal_ne {α : Type} {z : α} {c v : Option α}
    (hc : c ≠ some z) (hv : v ≠ some z) : fillVal c v ≠ some z := by
  cases v with
  | some x => exact hv
  | none => exact hc

/-- Forward filling of a single field's value sequence. -/
def ffillVals (c : Option Rat) : List (Option Rat) → List (Option Rat)
  | [] => []
  | v :: vs => fillVal c v :: ffillVals (fillVal c v) vs

theorem ffill_map_weight (cw cb cf : Option Rat) (l : List CleanRecord) :
    (ffillRecords cw cb cf l).map (fun r => r.weight) =
      ffillVals cw (l.map fun r => r.weight) := by
  induction l generalizing cw cb cf with
  | nil => rfl
  | cons r rs ih => simp [ffillRecords, ffillVals, ih]

theorem ffill_map_bmi (cw cb cf : Option Rat) (l : List CleanRecord) :
    (ffillRecords cw cb cf l).map (fun r => r.bmi) =
      ffillVals cb (l.map fun r => r.bmi) := by
  induction l generalizing cw cb cf with
  | nil => rfl
  | cons r rs ih => simp [ffillRecords, ffillVals, ih]

theorem ffill_map_fat (cw cb cf : Option Rat) (l : List CleanRecord) :
    (ffillRecords cw cb cf l).map (fun r => r.fat) =
      ffillVals cf (l.map fun r => r.fat) := by
  induction l generalizing cw cb cf with
  | nil => rfl
  | cons r rs ih => simp [ffillRecords, ffillVals, ih]

theorem ffill_map_date (cw cb cf : Option Rat) (l : List CleanRecord) :
    (ffillRecords cw cb cf l).map (fun r => r.date) = l.map fun r => r.date := by
  induction l generalizing cw cb cf with
  | nil => rfl
  | cons r rs ih => simp [ffillRecords, ih]

theorem ffill_provenance (cw cb cf : Option Rat) (l : List CleanRecord)
    (r : CleanRecord) (h : r ∈ ffillRecords cw cb cf l) :
    ∃ p ∈ l, r.date = p.date ∧ r.logId = p.logId ∧
      r.source = p.source ∧ r.time = p.time := by
  induction l generalizing cw cb cf with
  | nil => simp [ffillRecords] at h
  | cons p ps ih =>
    simp only [ffillRecords, List.mem_cons] at h
    rcases h with h | h
    · exact ⟨p, List.mem_cons_self p ps, by simp [h]⟩
    · obtain ⟨q, hq, heq⟩ := ih _ _ _ h
      exact ⟨q, List.mem_cons_of_mem p hq, heq⟩

theorem ffill_idem (cw cb cf : Option Rat) (l : List CleanRecord) :
    ffillRecords cw cb cf (ffillRecords cw cb cf l) = ffillRecords cw cb cf l := by
  induction l generalizing cw cb cf with
  | nil => rfl
  | cons r rs ih =>
    cases r
    simp [ffillRecords, fillVal_fillVal, ih]

theorem ffill_noZero (cw cb cf : Option Rat) (l : List CleanRecord)
    (hw : cw ≠ some 0) (hb : cb ≠ some 0) (hf : cf ≠ some 0)
    (hl : ∀ r ∈ l, r.weight ≠ some 0 ∧ r.bmi ≠ some 0 ∧ r.fat ≠ some 0) :
    ∀ r ∈ ffillRecords cw cb cf l,
      r.weight ≠ some 0 ∧ r.bmi ≠ some 0 ∧ r.fat ≠ some 0 := by
  induction l generalizing cw cb cf with
  | nil => intro r h; simp [ffillRecords] at h
  | cons p ps ih =>
    intro r h
    obtain ⟨hpw, hpb, hpf⟩ := hl p (List.mem_cons_self p ps)
    simp only [ffillRecords, List.mem_cons] at h
    rcases h with h | h
    · subst h
      exact ⟨fillVal_ne hw hpw, fillVal_ne hb hpb, fillVal_ne hf hpf⟩
    · exact ih _ _ _ (fillVal_ne hw hpw) (fillVal_ne hb hpb) (fillVal_ne hf hpf)
        (fun q hq => hl q (List.mem_cons_of_mem p hq)) r h

theorem getLast?_cons_fill {α : Type} (a : α) (l : List α) :
    (a :: l).getLast? = fillVal (some a) l.getLast? := by
  cases l with
  | nil => rfl
  | cons b l' =>
    rw [List.getLast?_cons_cons]
    cases h : (b :: l').getLast? with
    | some x => rfl
    | none => simp at h

theorem ffillVals_eq_spec (c : Option Rat) (vs : List (Option Rat)) :
    ffillVals c vs =
      (List.range vs.length).map
        fun i => fillVal c (((vs.take (i + 1)).filterMap id).getLast?) := by
  induction vs generalizing c with
  | nil => rfl
  | cons v vs' ih =>
    simp only [ffillVals, List.length_cons, List.range_succ_eq_map, List.map_cons,
      List.map_map]
    congr 1
    · cases v <;> rfl
    · rw [ih (fillVal c v)]
      apply List.map_congr_left
      intro i _
      cases v with
      | none =>
        simp only [Function.comp_apply, Nat.succ_eq_add_one, List.take_succ_cons,
          List.filterMap_cons, id_eq]
        rfl
      | some q =>
        simp only [Function.comp_apply, Nat.succ_eq_add_one, List.take_succ_cons,
          List.filterMap_cons, id_eq]
        rw [getLast?_cons_fill]
        cases h : ((List.take (i + 1) vs').filterMap id).getLast? <;> rfl

theorem specForwardFill_eq_ffillVals (vs : List (Option Rat)) :
    specForwardFill vs = ffillVals none vs := by
  rw [specForwardFill, ffillVals_eq_spec]
  apply List.map_congr_left
  intro i _
  rw [fillVal_none]

/-! ## Lemmas about deduplication -/

theorem dropSeen_subset {α β : Type} [DecidableEq β] (key : α → β)
    (seen : List β) (l : List α) : ∀ a ∈ dropSeen key seen l, a ∈ l := by
  induction l generalizing seen with
  | nil => intro a h; simp [dropSeen] at h
  | cons b l' ih =>
    intro a h
    simp only [dropSeen] at h
    by_cases hb : key b ∈ seen
    · simp only [if_pos hb] at h
      exact List.mem_cons_of_mem b (ih seen a h)
    · simp only [if_neg hb, List.mem_cons] at h
      rcases h with h | h
      · exact h ▸ List.mem_cons_self b l'
      · exact List.mem_cons_of_mem b (ih _ a h)

theorem dropSeen_keys_fresh {α β : Type} [DecidableEq β] (key : α → β)
    (seen : List β) (l : List α) :
    ∀ a ∈ dropSeen key seen l, key a ∉ seen := by
  induction l generalizing seen with
  | nil => intro a h; simp [dropSeen] at h
  | cons b l' ih =>
    intro a h
    simp only [dropSeen] at h
    by_cases hb : key b ∈ seen
    · simp only [if_pos hb] at h
      exact ih seen a h
    · simp only [if_neg hb, List.mem_cons] at h
      rcases h with h | h
      · exact h ▸ hb
      · intro hc
        exact ih _ a h (List.mem_cons_of_mem _ hc)

theorem dropSeen_keys_nodup {α β : Type} [DecidableEq β] (key : α → β)
    (seen : List β) (l : List α) :
    ((dropSeen key seen l).map key).Nodup := by
  induction l generalizing seen with
  | nil => simp [dropSeen]
  | cons b l' ih =>
    simp only [dropSeen]
    by_cases hb : key b ∈ seen
    · simpa [if_pos hb] using ih seen
    · simp only [if_neg hb, List.map_cons, List.nodup_cons]
      refine ⟨?_, ih _⟩
      intro hc
      obtain ⟨a, ha, hka⟩ := List.mem_map.mp hc
      exact dropSeen_keys_fresh key _ l' a ha (hka ▸ List.mem_cons_self _ _)

theorem dropSeen_eq_self {α β : Type} [DecidableEq β] (key : α → β)
    (seen : List β) (l : List α) (hn : (l.map key).Nodup)
    (hs : ∀ a ∈ l, key a ∉ seen) : dropSeen key seen l = l := by
  induction l generalizing seen with
  | nil => rfl
  | cons b l' ih =>
    simp only [List.map_cons, List.nodup_cons] at hn
    simp only [dropSeen, if_neg (hs b (List.mem_cons_self b l'))]
    congr 1
    apply ih _ hn.2
    intro a ha
    simp only [List.mem_cons, not_or]
    constructor
    · intro hc
      exact hn.1 (hc ▸ List.mem_map_of_mem key ha)
    · exact hs a (List.mem_cons_of_mem b ha)

theorem dropSeen_find? {α β : Type} [DecidableEq β] (key : α → β)
    (seen : List β) (l : List α) (d : β) (hd : d ∉ seen) :
    (dropSeen key seen l).find? (fun a => key a == d) =
      l.find? (fun a => key a == d) := by
  induction l generalizing seen with
  | nil => rfl
  | cons b l' ih =>
    simp only [dropSeen]
    by_cases hb : key b ∈ seen
    · have hne : (key b == d) = false := by
        simp only [beq_eq_false_iff_ne, ne_eq]
        intro hc
        exact hd (hc ▸ hb)
      rw [if_pos hb, List.find?_cons, hne]
      exact ih seen hd
    · rw [if_neg hb, List.find?_cons, List.find?_cons]
      cases hbd : key b == d with
      | true => rfl
      | false =>
        apply ih
        simp only [List.mem_cons, not_or]
        refine ⟨?_, hd⟩
        intro hc
        rw [hc] at hbd
        simp at hbd

theorem dropSeen_mem_keys {α β : Type} [DecidableEq β] (key : α → β)
    (seen : List β) (l : List α) (d : β) (hd : d ∉ seen) :
    d ∈ (dropSeen key seen l).map key ↔ d ∈ l.map key := by
  have h1 : ∀ m : List α, d ∈ m.map key ↔ ∃ a ∈ m, (key a == d) = true := by
    intro m
    simp only [List.mem_map, beq_iff_eq]
  rw [h1, h1, ← List.find?_isSome, ← List.find?_isSome, dropSeen_find? key seen l d hd]

theorem find?_key_self {α β : Type} [DecidableEq β] (key : α → β)
    (l : List α) (hn : (l.map key).Nodup) (a : α) (ha : a ∈ l) :
    l.find? (fun x => key x == key a) = some a := by
  induction l with
  | nil => simp at ha
  | cons b l' ih =>
    simp only [List.map_cons, List.nodup_cons] at hn
    rcases List.mem_cons.mp ha with rfl | ha'
    · simp [List.find?_cons]
    · have hne : (key b == key a) = false := by
        simp only [beq_eq_false_iff_ne, ne_eq]
        intro hc
        exact hn.1 (hc ▸ List.mem_map_of_mem key ha')
      rw [List.find?_cons, hne]
      exact ih hn.2 ha'

/-! ## Lemmas about the chunk loop -/

theorem requestsAux_mem_bounds (c fuel : Nat) : ∀ cur endD : Nat,
    ∀ p ∈ requestsAux c fuel cur endD,
      cur ≤ p.1 ∧ p.1 ≤ endD ∧ p.2 = min (p.1 + c) endD := by
  induction fuel with
  | zero => intro cur endD p h; simp [requestsAux] at h
  | succ fuel ih =>
    intro cur endD p h
    simp only [requestsAux] at h
    by_cases hc : cur ≤ endD
    · rw [if_pos hc] at h
      rcases List.mem_cons.mp h with rfl | h'
      · exact ⟨le_refl _, hc, rfl⟩
      · obtain ⟨h1, h2, h3⟩ := ih _ _ p h'
        exact ⟨by omega, h2, h3⟩
    · rw [if_neg hc] at h
      simp at h

theorem requestsAux_coverage (c fuel : Nat) : ∀ cur endD : Nat,
    endD + 1 - cur ≤ fuel → ∀ d : Nat,
      (∃ p ∈ requestsAux c fuel cur endD, p.1 ≤ d ∧ d ≤ p.2) ↔
        (cur ≤ d ∧ d ≤ endD) := by
  induction fuel with
  | zero =>
    intro cur endD h d
    constructor
    · rintro ⟨p, hp, -⟩; simp [requestsAux] at hp
    · rintro ⟨h1, h2⟩; omega
  | succ fuel ih =>
    intro cur endD h d
    by_cases hc : cur ≤ endD
    · simp only [requestsAux, if_pos hc, List.mem_cons]
      have ihh := ih (min (cur + c) endD + 1) endD (by omega) d
      constructor
      · rintro ⟨p, hp | hp, hd1, hd2⟩
        · subst hp
          simp only at hd1 hd2
          omega
        · have := ihh.mp ⟨p, hp, hd1, hd2⟩
          omega
      · rintro ⟨h1, h2⟩
        by_cases hd : d ≤ min (cur + c) endD
        · exact ⟨(cur, min (cur + c) endD), Or.inl rfl, h1, hd⟩
        · obtain ⟨p, hp, hb⟩ := ihh.mpr ⟨by omega, h2⟩
          exact ⟨p, Or.inr hp, hb⟩
    · simp only [requestsAux, if_neg hc]
      constructor
      · rintro ⟨p, hp, -⟩; simp at hp
      · rintro ⟨h1, h2⟩; omega

theorem requestsAux_pairwise (c fuel : Nat) : ∀ cur endD : Nat,
    (requestsAux c fuel cur endD).Pairwise (fun p q => p.2 < q.1) := by
  induction fuel with
  | zero => intro cur endD; simp [requestsAux]
  | succ fuel ih =>
    intro cur endD
    by_cases hc : cur ≤ endD
    · simp only [requestsAux, if_pos hc]
      refine List.pairwise_cons.mpr ⟨?_, ih _ _⟩
      intro q hq
      have := requestsAux_mem_bounds c fuel _ _ q hq
      simp only
      omega
    · simp [requestsAux, if_neg hc]

theorem requestsAux_chain (c fuel : Nat) : ∀ cur endD : Nat,
    List.Chain' (fun p q => q.1 = p.2 + 1) (requestsAux c fuel cur endD) := by
  induction fuel with
  | zero => intro cur endD; simp [requestsAux]
  | succ fuel ih =>
    intro cur endD
    by_cases hc : cur ≤ endD
    · simp only [requestsAux, if_pos hc]
      rw [List.chain'_cons']
      refine ⟨?_, ih _ _⟩
      intro q hq
      cases fuel with
      | zero => simp [requestsAux] at hq
      | succ f =>
        by_cases h2 : min (cur + c) endD + 1 ≤ endD
        · simp only [requestsAux, if_pos h2, List.head?_cons, Option.mem_def,
            Option.some.injEq] at hq
          rw [← hq]
        · simp [requestsAux, if_neg h2] at hq
    · simp [requestsAux, if_neg hc]

theorem fetchAux_eq_join (client : Client) (c fuel : Nat) : ∀ cur endD : Nat,
    fetchAux client c fuel cur endD =
      (((requestsAux c fuel cur endD).map (chunkEntries client)).flatten,
       ((requestsAux c fuel cur endD).map (chunkFails client)).flatten) := by
  induction fuel with
  | zero => intro cur endD; rfl
  | succ fuel ih =>
    intro cur endD
    by_cases hc : cur ≤ endD
    · simp only [fetchAux, requestsAux, if_pos hc, List.map_cons, List.flatten_cons]
      rw [ih]
      cases h : client cur (min (cur + c) endD) with
      | ok o =>
        cases o with
        | some entries => simp [chunkEntries, chunkFails, h]
        | none => simp [chunkEntries, chunkFails, h]
      | error msg => simp [chunkEntries, chunkFails, h]
    · simp [fetchAux, requestsAux, if_neg hc]

theorem get_body_data_eq_join (client : Client) (start endD c : Nat) :
    get_body_data client start endD c =
      (((requests c start endD).map (chunkEntries client)).flatten,
       ((requests c start endD).map (chunkFails client)).flatten) :=
  fetchAux_eq_join client c (endD + 1 - start) start endD

theorem requestsAux_fuel (c : Nat) : ∀ f1 f2 cur endD : Nat,
    endD + 1 - cur ≤ f1 → endD + 1 - cur ≤ f2 →
    requestsAux c f1 cur endD = requestsAux c f2 cur endD := by
  intro f1
  induction f1 with
  | zero =>
    intro f2 cur endD h1 h2
    cases f2 with
    | zero => rfl
    | succ f2 =>
      simp only [requestsAux]
      rw [if_neg (by omega)]
  | succ f1 ih =>
    intro f2 cur endD h1 h2
    by_cases hc : cur ≤ endD
    · cases f2 with
      | zero => omega
      | succ f2 =>
        simp only [requestsAux, if_pos hc]
        congr 1
        exact ih f2 _ endD (by omega) (by omega)
    · cases f2 with
      | zero => simp only [requestsAux]; rw [if_neg hc]
      | succ f2 => simp only [requestsAux]; rw [if_neg hc, if_neg hc]

theorem requests_step (c s e : Nat) (h : s ≤ e) :
    requests c s e = (s, min (s + c) e) :: requests c (min (s + c) e + 1) e := by
  unfold requests
  cases hf : e + 1 - s with
  | zero => omega
  | succ f =>
    simp only [requestsAux, if_pos h]
    congr 1
    exact requestsAux_fuel c f _ _ e (by omega) (by omega)

theorem requests_nil (c s e : Nat) (h : e < s) : requests c s e = [] := by
  unfold requests
  rw [show e + 1 - s = 0 by omega]
  rfl

theorem requests_65_30 (s : Nat) :
    requests 30 s (s + 65) = [(s, s + 30), (s + 31, s + 61), (s + 62, s + 65)] := by
  rw [requests_step 30 s (s + 65) (by omega), Nat.min_eq_left (by omega),
    show s + 30 + 1 = s + 31 by omega]
  rw [requests_step 30 (s + 31) (s + 65) (by omega),
    show s + 31 + 30 = s + 61 by omega, Nat.min_eq_left (by omega),
    show s + 61 + 1 = s + 62 by omega]
  rw [requests_step 30 (s + 62) (s + 65) (by omega),
    show s + 62 + 30 = s + 92 by omega, Nat.min_eq_right (by omega),
    show s + 65 + 1 = s + 66 by omega]
  rw [requests_nil 30 (s + 66) (s + 65) (by omega)]

/-! ## Lemmas about the store -/

theorem foldl_max_le (m : Nat) : ∀ (l : List Nat) (a : Nat),
    a ≤ m → (∀ d ∈ l, d ≤ m) → l.foldl max a ≤ m := by
  intro l
  induction l with
  | nil => intro a ha _; exact ha
  | cons x l' ih =>
    intro a ha hl
    simp only [List.foldl_cons]
    exact ih _ (by
      have := hl x (List.mem_cons_self x l')
      omega) (fun d hd => hl d (List.mem_cons_of_mem x hd))

theorem foldl_max_ge_start : ∀ (l : List Nat) (a : Nat), a ≤ l.foldl max a := by
  intro l
  induction l with
  | nil => intro a; exact le_refl a
  | cons x l' ih =>
    intro a
    simp only [List.foldl_cons]
    have := ih (max a x)
    omega

theorem foldl_max_ge_mem : ∀ (l : List Nat) (a d : Nat), d ∈ l → d ≤ l.foldl max a := by
  intro l
  induction l with
  | nil => intro a d hd; simp at hd
  | cons x l' ih =>
    intro a d hd
    simp only [List.foldl_cons]
    rcases List.mem_cons.mp hd with rfl | hd'
    · have := foldl_max_ge_start l' (max a d)
      omega
    · exact ih _ d hd'

/-! ## Lemmas bridging the cleaning pass to its claims -/

theorem sortedDeduped_dates_nodup (input : List RawRecord) :
    ((sortByDate (dedupByDate input)).map (fun r => r.date)).Nodup := by
  have h1 : ((dedupByDate input).map (fun r => r.date)).Nodup :=
    dropSeen_keys_nodup (fun r => r.date) [] input
  have h2 : (sortByDate (dedupByDate input)).Perm (dedupByDate input) :=
    List.perm_insertionSort dateLE (dedupByDate input)
  exact ((h2.map (fun r => r.date)).nodup_iff).mpr h1

theorem sortedDeduped_sorted (input : List RawRecord) :
    ((sortByDate (dedupByDate input)).map (fun r => r.date)).Pairwise (· ≤ ·) := by
  have h := List.sorted_insertionSort dateLE (dedupByDate input)
  exact List.pairwise_map.mpr h

theorem clean_map_date (input : List RawRecord) :
    (clean_body_data input).map (fun r => r.date) =
      (sortByDate (dedupByDate input)).map (fun r => r.date) := by
  simp only [clean_body_data]
  rw [ffill_map_date, List.map_map]
  rfl

theorem zeroToNone_ne_zero (v : Option Rat) : zeroToNone v ≠ some 0 := by
  cases v with
  | none => simp [zeroToNone]
  | some q =>
    by_cases h : q = 0 <;> simp [zeroToNone, h]

theorem clean_noZero (input : List RawRecord) :
    ∀ r ∈ clean_body_data input,
      r.weight ≠ some 0 ∧ r.bmi ≠ some 0 ∧ r.fat ≠ some 0 := by
  simp only [clean_body_data]
  apply ffill_noZero _ _ _ _ (by simp) (by simp) (by simp)
  intro r hr
  obtain ⟨s, _, rfl⟩ := List.mem_map.mp hr
  exact ⟨zeroToNone_ne_zero _, zeroToNone_ne_zero _, zeroToNone_ne_zero _⟩

theorem zeroToNone_coerce_toRawVal (v : Option Rat) (hv : v ≠ some 0) :
    zeroToNone (coerceVal (toRawVal v)) = v := by
  cases v with
  | none => rfl
  | some q =>
    have hq : q ≠ 0 := fun h => hv (by rw [h])
    simp [toRawVal, coerceVal, zeroToNone, hq]

theorem toCleanRecord_reRaw (r : CleanRecord)
    (hw : r.weight ≠ some 0) (hb : r.bmi ≠ some 0) (hf : r.fat ≠ some 0) :
    toCleanRecord (reRaw r) = r := by
  obtain ⟨d, w, b, f, li, so, ti⟩ := r
  simp only [toCleanRecord, reRaw] at *
  rw [zeroToNone_coerce_toRawVal w hw, zeroToNone_coerce_toRawVal b hb,
    zeroToNone_coerce_toRawVal f hf]

/-! ## Concrete inputs used by witnesses and counterexamples -/

/-- A sample entry returned by the first chunk. -/
def exEntry1 : Entry := ⟨"b1", "d1", "l1", "s1", "t1", "w1", "f1"⟩

/-- A sample entry returned by the third chunk. -/
def exEntry3 : Entry := ⟨"b3", "d3", "l3", "s3", "t3", "w3", "f3"⟩

/-- A client for the 3-chunk range `[0, 65]` with chunk size 30 whose
second chunk (base date 31) raises. -/
def exClientC4 : Client := fun b _ =>
  if b = 0 then .ok (some [exEntry1])
  else if b = 31 then .error "boom"
  else .ok (some [exEntry3])

/-! ## Claim C3 -/

/-- C3, counterexample: with `start = 0`, `end = 65`, chunk size 30, the
code issues the requests `(0, 30), (31, 61), (62, 65)` (base and end both
inclusive), not requests covering `[0,30), [30,60), [60,65]`: the second
request starts at day 31, not day 30, under either reading of the
claimed half-open boundaries. -/
theorem claim_C3_counterexample :
    requests 30 0 65 = [(0, 30), (31, 61), (62, 65)] ∧
    requests 30 0 65 ≠ [(0, 30), (30, 60), (60, 65)] ∧
    requests 30 0 65 ≠ [(0, 29), (30, 59), (60, 65)] := by decide

/-- C3 (amended): for every `start ≤ end` the fetch partitions the
inclusive range `[start, end]` into consecutive chunks, one request per
chunk walking forward: every day of `[start, end]` is covered by a
request, requests are strictly increasing and consecutive (each base is
the previous end plus one day, so there are no gaps or overlaps), and
each request spans at most `chunk_size` days from base to end (i.e. up
to `chunk_size + 1` calendar days); in particular for `end - start = 65`
with chunk size 30 exactly 3 requests are issued:
`[start, start+30]`, `[start+31, start+61]`, `[start+62, start+65]`. -/
theorem claim_C3_chunking (c s e : Nat) :
    (∀ d : Nat, (∃ p ∈ requests c s e, p.1 ≤ d ∧ d ≤ p.2) ↔ (s ≤ d ∧ d ≤ e)) ∧
    (requests c s e).Pairwise (fun p q => p.2 < q.1) ∧
    List.Chain' (fun p q => q.1 = p.2 + 1) (requests c s e) ∧
    (∀ p ∈ requests c s e, s ≤ p.1 ∧ p.1 ≤ p.2 ∧ p.2 ≤ p.1 + c ∧ p.2 ≤ e) ∧
    requests 30 s (s + 65) = [(s, s + 30), (s + 31, s + 61), (s + 62, s + 65)] := by
  unfold requests
  refine ⟨fun d => requestsAux_coverage c _ s e (le_refl _) d,
    requestsAux_pairwise c _ s e, requestsAux_chain c _ s e, ?_, ?_⟩
  · intro p hp
    have h := requestsAux_mem_bounds c _ s e p hp
    omega
  · exact requests_65_30 s

/-- C3, witness: the amended theorem evaluated at `c = 30`, `s = 0`,
`e = 65`, with the bounds conjunct discharged at the concrete request
`(31, 61)` and the coverage conjunct at day 40. -/
theorem claim_C3_witness :
    ((0 ≤ 40 ∧ 40 ≤ 65) → ∃ p ∈ requests 30 0 65, p.1 ≤ 40 ∧ 40 ≤ p.2) ∧
    (31, 61) ∈ requests 30 0 65 ∧
    (0 ≤ 31 ∧ 31 ≤ 61 ∧ 61 ≤ 31 + 30 ∧ 61 ≤ 65) ∧
    requests 30 0 65 = [(0, 30), (0 + 31, 0 + 61), (0 + 62, 0 + 65)] := by
  have h := claim_C3_chunking 30 0 65
  exact ⟨fun hd => (h.1 40).mpr hd, by decide,
    h.2.2.2.1 (31, 61) (by decide), by simpa using h.2.2.2.2⟩

/-! ## Claim C4 -/

/-- C4: the fetch over a chunked range returns exactly the concatenation,
in chunk order, of the entries of every successful chunk; each failed
chunk contributes no records, is not retried (it appears exactly once in
the request list), and contributes exactly one report to the failure
channel; in particular when the second of the 3 chunks of `[0, 65]`
fails, the result holds the records of chunks 1 and 3 and exactly one
failure is reported. -/
theorem claim_C4_partial_failure (client : Client) (start endD c : Nat) :
    get_body_data client start endD c =
      (((requests c start endD).map (chunkEntries client)).flatten,
       ((requests c start endD).map (chunkFails client)).flatten) ∧
    get_body_data exClientC4 0 65 30 = ([exEntry1, exEntry3], [(31, 61, "boom")]) :=
  ⟨get_body_data_eq_join client start endD c, by decide⟩

/-! ## Claim C5 -/

/-- C5: when the store file exists and holds at least one record, the
synchronizer's start date is the maximum present date plus one day; when
the store is nonexistent or empty, it is the fixed default epoch, and
neither case is an error. -/
theorem claim_C5_start_date (dates : List Nat) (m : Nat)
    (hm : m ∈ dates) (hmax : ∀ d ∈ dates, d ≤ m) :
    get_start_date_from_csv (some dates) = m + 1 ∧
    get_start_date_from_csv (some []) = defaultStartDate ∧
    get_start_date_from_csv none = defaultStartDate := by
  refine ⟨?_, rfl, rfl⟩
  cases dates with
  | nil => simp at hm
  | cons x l =>
    have h1 : maxDateOf (x :: l) ≤ m := foldl_max_le m (x :: l) 0 (by omega) hmax
    have h2 : m ≤ maxDateOf (x :: l) := foldl_max_ge_mem (x :: l) 0 m hm
    simp only [get_start_date_from_csv, List.isEmpty_cons, Bool.false_eq_true,
      if_false]
    omega

/-- C5, witness: the theorem evaluated at the store contents `[3, 7, 5]`
with maximum date 7. -/
theorem claim_C5_witness :
    7 ∈ [3, 7, 5] ∧ (∀ d ∈ [3, 7, 5], d ≤ 7) ∧
    (get_start_date_from_csv (some [3, 7, 5]) = 7 + 1 ∧
     get_start_date_from_csv (some []) = defaultStartDate ∧
     get_start_date_from_csv none = defaultStartDate) :=
  ⟨by decide, by decide, claim_C5_start_date [3, 7, 5] 7 (by decide) (by decide)⟩

/-! ## Claim C6 -/

/-- C6, counterexample: `append_data_to_csv` keys on file existence, not
on content.  Appending one entry to an existing but empty store file
(`some []`) writes the data row without any header, while the claim says
an empty store is created with a header: the first line of the result is
not the canonical header row. -/
theorem claim_C6_counterexample :
    append_data_to_csv [exEntry1] (some []) = [entryRow exEntry1] ∧
    (append_data_to_csv [exEntry1] (some [])).head? ≠ some canonicalColumns := by
  decide

/-- C6 (amended): every append writes the records reordered into the
canonical column order `[bmi, date, logId, source, time, weight, fat]`;
if the store file does not exist it is created with a header line, and if
the file exists (even empty) the rows are appended without repeating the
header; hence two appends in sequence starting from a nonexistent store
produce exactly the concatenation of both batches under a single header
line. -/
theorem claim_C6_append (b1 b2 : List Entry) (lines : List (List String)) :
    append_data_to_csv b1 none = canonicalColumns :: b1.map entryRow ∧
    append_data_to_csv b2 (some lines) = lines ++ b2.map entryRow ∧
    append_data_to_csv b2 (some (append_data_to_csv b1 none)) =
      canonicalColumns :: (b1.map entryRow ++ b2.map entryRow) := by
  refine ⟨rfl, rfl, ?_⟩
  simp [append_data_to_csv]

/-! ## Claim C8 -/

/-- C8: whenever the computed start date is strictly after the end date
(in particular when the store's extent is at least `now`), the fetch
issues zero requests and returns an empty sequence with no failures, and
appending the resulting empty record set to the existing store file
leaves its contents unchanged. -/
theorem claim_C8_noop (dates : List Nat) (lines : List (List String))
    (client : Client) (c now : Nat)
    (h : now < get_start_date_from_csv (some dates)) :
    requests c (get_start_date_from_csv (some dates)) now = [] ∧
    get_body_data client (get_start_date_from_csv (some dates)) now c = ([], []) ∧
    append_data_to_csv [] (some lines) = lines := by
  refine ⟨?_, ?_, by simp [append_data_to_csv]⟩
  · unfold requests
    rw [show now + 1 - get_start_date_from_csv (some dates) = 0 by omega]
    rfl
  · unfold get_body_data
    rw [show now + 1 - get_start_date_from_csv (some dates) = 0 by omega]
    rfl

/-- C8, witness: a store whose extent is day 19600 and a clock reading
day 19000: no request, empty result, store contents unchanged. -/
theorem claim_C8_witness :
    19000 < get_start_date_from_csv (some [19600]) ∧
    (requests 30 (get_start_date_from_csv (some [19600])) 19000 = [] ∧
     get_body_data (fun _ _ => Except.ok none)
       (get_start_date_from_csv (some [19600])) 19000 30 = ([], []) ∧
     append_data_to_csv [] (some [["x"]]) = [["x"]]) :=
  ⟨by decide,
   claim_C8_noop [19600] [["x"]] (fun _ _ => Except.ok none) 30 19000 (by decide)⟩

/-! ## Claim C9 -/

/-- C9: on an input table lacking the `date` column, the cleaning call
fails with the `KeyError` raised at `drop_duplicates(subset='date')`, and
since the output write runs only after all prior steps, no partial
cleaned output is produced: the previous output file (or its absence) is
left as it was. -/
theorem claim_C9_missing_date (t : Table) (old : Option (List CleanRecord))
    (h : "date" ∉ t.header) :
    cleanTable t = .error "KeyError: date" ∧ runClean t old = old := by
  have h1 : cleanTable t = .error "KeyError: date" := by
    simp only [cleanTable, if_neg h]
  exact ⟨h1, by simp only [runClean, h1]⟩

/-- C9, witness: a table whose only column is `weight`, cleaned with no
pre-existing output file. -/
theorem claim_C9_witness :
    "date" ∉ (Table.mk ["weight"] [["50"]]).header ∧
    (cleanTable (Table.mk ["weight"] [["50"]]) = .error "KeyError: date" ∧
     runClean (Table.mk ["weight"] [["50"]]) none = none) :=
  ⟨by decide, claim_C9_missing_date (Table.mk ["weight"] [["50"]]) none (by decide)⟩

/-! ## Claim C10 -/

/-- C10: when the API request of the current chunk succeeds but the
response lacks the `'weight'` key, the chunk contributes zero records and
no failure report, and the loop simply continues with the next chunk. -/
theorem claim_C10_missing_key (client : Client) (c fuel cur endD : Nat)
    (hc : cur ≤ endD)
    (hk : client cur (min (cur + c) endD) = .ok none) :
    chunkEntries client (cur, min (cur + c) endD) = [] ∧
    chunkFails client (cur, min (cur + c) endD) = [] ∧
    fetchAux client c (fuel + 1) cur endD =
      fetchAux client c fuel (min (cur + c) endD + 1) endD := by
  refine ⟨by simp [chunkEntries, hk], by simp [chunkFails, hk], ?_⟩
  simp only [fetchAux, if_pos hc, hk]

/-- C10, witness: a client whose responses never carry the `'weight'`
key, on the one-chunk range `[0, 3]`. -/
theorem claim_C10_witness :
    (0 ≤ 3 ∧ (fun _ _ => Except.ok none : Client) 0 (min (0 + 30) 3) = .ok none) ∧
    (chunkEntries (fun _ _ => Except.ok none : Client) (0, min (0 + 30) 3) = [] ∧
     chunkFails (fun _ _ => Except.ok none : Client) (0, min (0 + 30) 3) = [] ∧
     fetchAux (fun _ _ => Except.ok none : Client) 30 (5 + 1) 0 3 =
       fetchAux (fun _ _ => Except.ok none : Client) 30 5 (min (0 + 30) 3 + 1) 3) :=
  ⟨⟨by decide, rfl⟩,
   claim_C10_missing_key (fun _ _ => Except.ok none) 30 5 0 3 (by decide) rfl⟩

/-! ## Claim C1 -/

/-- C1: in the cleaned series, for each of weight, bmi and fat
independently, the value at every position equals the nearest earlier
(or own) non-missing value — after coercing raw values to numeric with
non-numeric mapped to missing and a coerced value of exactly 0 treated
as missing — in the date-sorted deduplicated sequence; a position with
no earlier non-missing value remains missing (no fill from later
dates). -/
theorem claim_C1_forward_fill (input : List RawRecord) :
    (clean_body_data input).map (fun r => r.weight) =
      specForwardFill ((sortByDate (dedupByDate input)).map
        fun r => zeroToNone (coerceVal r.weight)) ∧
    (clean_body_data input).map (fun r => r.bmi) =
      specForwardFill ((sortByDate (dedupByDate input)).map
        fun r => zeroToNone (coerceVal r.bmi)) ∧
    (clean_body_data input).map (fun r => r.fat) =
      specForwardFill ((sortByDate (dedupByDate input)).map
        fun r => zeroToNone (coerceVal r.fat)) := by
  refine ⟨?_, ?_, ?_⟩
  · simp only [clean_body_data]
    rw [ffill_map_weight, specForwardFill_eq_ffillVals, List.map_map]
    rfl
  · simp only [clean_body_data]
    rw [ffill_map_bmi, specForwardFill_eq_ffillVals, List.map_map]
    rfl
  · simp only [clean_body_data]
    rw [ffill_map_fat, specForwardFill_eq_ffillVals, List.map_map]
    rfl

/-! ## Claim C2 -/

/-- `find?` over the deduplicated records agrees with `find?` over the
raw input, for any date key. -/
theorem dedup_find?_date (input : List RawRecord) (d : Nat) :
    (dedupByDate input).find? (fun x => x.date == d) =
      input.find? (fun x => x.date == d) :=
  dropSeen_find? (fun r => r.date) [] input d (by simp)

/-- C2: the cleaned output has exactly one record per input date, its
dates are strictly increasing (deduplication happens before the final
ascending sort by date), and the record surviving for each date is the
occurrence appearing first in the original, unsorted input order — its
date and provenance fields are those of the first matching input
record. -/
theorem claim_C2_dedup (input : List RawRecord) :
    ((clean_body_data input).map (fun r => r.date)).Pairwise (· < ·) ∧
    (∀ d : Nat, ((clean_body_data input).map (fun r => r.date)).count d =
      if d ∈ input.map (fun r => r.date) then 1 else 0) ∧
    (∀ r ∈ clean_body_data input,
      ∃ s, input.find? (fun x => x.date == r.date) = some s ∧ r.date = s.date ∧
        r.logId = s.logId ∧ r.source = s.source ∧ r.time = s.time) := by
  have hd := clean_map_date input
  have hnodup := sortedDeduped_dates_nodup input
  have hsorted := sortedDeduped_sorted input
  have hmem : ∀ d : Nat,
      d ∈ (sortByDate (dedupByDate input)).map (fun r => r.date) ↔
        d ∈ input.map (fun r => r.date) := by
    intro d
    have hperm : ((sortByDate (dedupByDate input)).map (fun r => r.date)).Perm
        ((dedupByDate input).map (fun r => r.date)) :=
      (List.perm_insertionSort dateLE (dedupByDate input)).map _
    rw [hperm.mem_iff]
    exact dropSeen_mem_keys (fun r => r.date) [] input d (by simp)
  refine ⟨?_, ?_, ?_⟩
  · rw [hd]
    exact (hsorted.and hnodup).imp fun h => lt_of_le_of_ne h.1 h.2
  · intro d
    rw [hd]
    by_cases hdm : d ∈ input.map (fun r => r.date)
    · rw [if_pos hdm]
      exact List.count_eq_one_of_mem hnodup ((hmem d).mpr hdm)
    · rw [if_neg hdm]
      exact List.count_eq_zero.mpr fun hc => hdm ((hmem d).mp hc)
  · intro r hr
    simp only [clean_body_data] at hr
    obtain ⟨p, hp, hdate, hlog, hsrc, htime⟩ := ffill_provenance _ _ _ _ r hr
    obtain ⟨s0, hs0, hps0⟩ := List.mem_map.mp hp
    have hs0d : s0 ∈ dedupByDate input := (List.mem_insertionSort dateLE).mp hs0
    have hnodupD : ((dedupByDate input).map (fun r => r.date)).Nodup :=
      dropSeen_keys_nodup (fun r => r.date) [] input
    have hfind : (dedupByDate input).find? (fun x => x.date == s0.date) = some s0 :=
      find?_key_self (fun r => r.date) (dedupByDate input) hnodupD s0 hs0d
    have hrd : r.date = s0.date := by rw [hdate, ← hps0]; rfl
    refine ⟨s0, ?_, hrd, ?_, ?_, ?_⟩
    · rw [hrd, ← dedup_find?_date]
      exact hfind
    · rw [hlog, ← hps0]; rfl
    · rw [hsrc, ← hps0]; rfl
    · rw [htime, ← hps0]; rfl

/-- An input with the date 1 twice: its first occurrence (weight 10,
provenance `(0, "a", "t1")`) must survive, not the later one. -/
def exC2Input : List RawRecord :=
  [⟨1, .num 10, .nonNum, .nonNum, 0, "a", "t1"⟩,
   ⟨1, .num 20, .nonNum, .nonNum, 1, "b", "t2"⟩,
   ⟨2, .num 30, .nonNum, .nonNum, 2, "c", "t3"⟩]

/-- The cleaned record for date 1 of `exC2Input`. -/
def exC2Rec : CleanRecord := ⟨1, some 10, none, none, 0, "a", "t1"⟩

/-- C2, witness: the theorem evaluated on `exC2Input`, with the
per-record conjunct discharged at the cleaned record for date 1. -/
theorem claim_C2_witness :
    ((clean_body_data exC2Input).map (fun r => r.date)).Pairwise (· < ·) ∧
    ((clean_body_data exC2Input).map (fun r => r.date)).count 1 = 1 ∧
    exC2Rec ∈ clean_body_data exC2Input ∧
    (∃ s, exC2Input.find? (fun x => x.date == exC2Rec.date) = some s ∧
      exC2Rec.date = s.date ∧ exC2Rec.logId = s.logId ∧
      exC2Rec.source = s.source ∧ exC2Rec.time = s.time) := by
  have h := claim_C2_dedup exC2Input
  refine ⟨h.1, ?_, by decide, h.2.2 exC2Rec (by decide)⟩
  have h2 := h.2.1 1
  rw [if_pos (by decide)] at h2
  exact h2

/-! ## Claim C7 -/

/-- C7: cleaning is idempotent — re-cleaning the cleaned series (as it
reads back from the output file) returns it unchanged, because the
cleaned output already has no duplicate dates, is sorted ascending by
date, and is fully coerced with zeros removed. -/
theorem claim_C7_idempotent (input : List RawRecord) :
    clean_body_data ((clean_body_data input).map reRaw) = clean_body_data input := by
  have hnodup := sortedDeduped_dates_nodup input
  have hsorted := sortedDeduped_sorted input
  have hod := clean_map_date input
  have hre : ((clean_body_data input).map reRaw).map (fun r => r.date) =
      (clean_body_data input).map (fun r => r.date) := by
    rw [List.map_map]; rfl
  have h1 : dedupByDate ((clean_body_data input).map reRaw) =
      (clean_body_data input).map reRaw := by
    apply dropSeen_eq_self
    · rw [hre, hod]; exact hnodup
    · simp
  have h2 : sortByDate ((clean_body_data input).map reRaw) =
      (clean_body_data input).map reRaw := by
    apply List.Sorted.insertionSort_eq
    have hP : (((clean_body_data input).map reRaw).map
        (fun r => r.date)).Pairwise (· ≤ ·) := by
      rw [hre, hod]; exact hsorted
    have hP2 := List.pairwise_map.mp hP
    exact hP2
  have h3 := clean_noZero input
  have h4 : ((clean_body_data input).map reRaw).map toCleanRecord =
      clean_body_data input := by
    rw [List.map_map]
    have he : ∀ r ∈ clean_body_data input, (toCleanRecord ∘ reRaw) r = id r := by
      intro r hr
      exact toCleanRecord_reRaw r (h3 r hr).1 (h3 r hr).2.1 (h3 r hr).2.2
    rw [List.map_congr_left he, List.map_id]
  show ffillRecords none none none
      ((sortByDate (dedupByDate ((clean_body_data input).map reRaw))).map
        toCleanRecord) = clean_body_data input
  rw [h1, h2, h4]
  show ffillRecords none none none
      (ffillRecords none none none
        ((sortByDate (dedupByDate input)).map toCleanRecord)) = _
  rw [ffill_idem]
  rfl

end HealthConnect
